import Mathlib

/-!
Verification of the order-reader core of the order-support-backend repository
(`src/order-reader/index.js`), as a shallow embedding in Lean 4.

Modelling conventions, fixed once for the whole development:

* JavaScript objects whose keys are inserted dynamically are modelled as
  association lists `List (String × α)` kept in insertion order; assignment
  `obj[k] = v` is `objSet`, which overwrites in place (keeping the key's
  original position) or appends a fresh key at the end, exactly as JS
  property assignment behaves for string keys.
* A thrown JS exception is modelled as an `Except` error value that aborts
  the computation in which it is raised.  (In the source a throw inside the
  readline `line` handler escapes the event loop rather than rejecting the
  returned promise; the abstraction here is "the parse fails with this
  error".)
* The compiled header regex `new RegExp(headers.map(escapeRegExp).join('|'), 'g')`
  is an ordered alternation of escaped literals.  Since an escaped literal
  matches exactly the original header text, the compiled regex is modelled
  by the list of header literals itself, matched leftmost-position-first and,
  at equal positions, first-alternative-first, which is JS alternation
  semantics.  The degenerate alternation built from zero headers is the empty
  pattern, which matches the empty string at every position.
* `RegExp.prototype.exec` on a global regex advances `lastIndex` by the match
  length; a zero-length match leaves `lastIndex` unchanged so the
  `while (m = regexp.exec(s))` loop of `allMatches` never terminates.  The
  loop is therefore modelled with explicit fuel (`allMatchesF`); fuel
  exhaustion is the marker error `PErr.diverge`, which never occurs when all
  headers are non-empty (proved below).
* The record-separator pattern (`new RegExp(sep)` or the default `/^_+$/`)
  is modelled by a small regex fragment `Rx` covering the constructs the
  dictionary patterns use: optional `^` / `$` anchors, literal characters
  and `c+`.  `exec` on such a pattern is substring search, anchored only if
  the pattern itself carries anchors.
* `String.prototype.trim` strips ASCII whitespace (space, tab, CR, LF);
  the additional Unicode space characters JS trims are outside the inputs
  modelled here.
-/

/-- Whitespace as stripped by `String.prototype.trim` (ASCII fragment). -/
def isWsChar (c : Char) : Bool :=
  c == ' ' || c == '\t' || c == '\n' || c == '\r'

/-- `value.trim()` on the underlying character list. -/
def trimChars (l : List Char) : List Char :=
  ((l.dropWhile isWsChar).reverse.dropWhile isWsChar).reverse

/-- `value.trim()`. -/
def trimS (s : String) : String :=
  ⟨trimChars s.data⟩

/-- Prepend a character to the first group of a split result
(helper for `splitCh`). -/
def consHead (c : Char) : List (List Char) → List (List Char)
  | [] => [[c]]
  | l :: ls => (c :: l) :: ls

/-- `string.split(/\r?\n/)` on the underlying character list: a break at
every `\n`, a `\r` immediately before a `\n` is consumed with it, a lone
`\r` is an ordinary character. -/
def splitCh : List Char → List (List Char)
  | [] => [[]]
  | '\r' :: '\n' :: rest => [] :: splitCh rest
  | '\n' :: rest => [] :: splitCh rest
  | c :: rest => consHead c (splitCh rest)

/-- `splitLines` of the source: split a string by newlines, excluding the
newline characters from the result. -/
def splitLines (s : String) : List String :=
  (splitCh s.data).map (fun l => ⟨l⟩)

/-- The readline interface's line splitting: unlike `split(/\r?\n/)`, a
lone `\r` is also a line terminator (readline breaks at `\r\n`, `\n` and
`\r`). -/
def rlSplitCh : List Char → List (List Char)
  | [] => [[]]
  | '\r' :: '\n' :: rest => [] :: rlSplitCh rest
  | '\n' :: rest => [] :: rlSplitCh rest
  | '\r' :: rest => [] :: rlSplitCh rest
  | c :: rest => consHead c (rlSplitCh rest)

/-- The readline splitter on strings. -/
def rlSplitLines (s : String) : List String :=
  (rlSplitCh s.data).map (fun l => ⟨l⟩)

/-- The line sequence the readline interface emits for an in-memory string:
the terminator-split groups, except that the empty group after a trailing
terminator (or for the empty string) produces no line. -/
def readLines (s : String) : List String :=
  let l := rlSplitLines s
  if l.getLast? == some "" then l.dropLast else l

/-- JS property lookup `o[k]` on an insertion-ordered object. -/
def objLookup (o : List (String × α)) (k : String) : Option α :=
  (o.find? (fun p => p.1 == k)).map (fun p => p.2)

/-- JS property assignment `o[k] = v`: overwrite in place if the key exists,
else append the key at the end of the insertion order. -/
def objSet (o : List (String × α)) (k : String) (v : α) : List (String × α) :=
  if (o.find? (fun p => p.1 == k)).isSome then
    o.map (fun p => if p.1 == k then (k, v) else p)
  else o ++ [(k, v)]

/-- A processor option value as it appears in the dictionary JSON
(a string or a number, which is all the processors use). -/
inductive OptVal where
  | str (s : String)
  | num (n : Nat)
deriving DecidableEq

/-- A `fields_by_header` entry: the processor kind named by `type`, and the
remaining configuration options (the source clones the entry and deletes
`type` before handing it to the factory). -/
structure FieldCfg where
  type : String
  opts : List (String × OptVal)
deriving DecidableEq

/-- A `belongs_to` ownership rule. -/
structure Owner where
  match_on : String
  as : String
deriving DecidableEq

/-- One object-type definition of the dictionary.  The `data` setter of
`FieldDictionary` defaults `fields_by_header` to `{}`; both maps are kept in
insertion order. -/
structure TypeDef where
  fields : List (String × String)
  fields_by_header : List (String × FieldCfg)
  belongs_to : Option Owner
deriving DecidableEq

/-- A dictionary: the object-type entries in insertion order, plus the
reserved `options` entry (of which only `record_separator` is read). -/
structure Dict where
  types : List (String × TypeDef)
  record_separator : Option String
deriving DecidableEq

/-- Errors a parse can raise.  Payloads record the data the JS error message
interpolates (the `uncategorizable` message stringifies the raw capture; the
header list is kept here).  `referenceError` is the strict-mode error raised
by evaluating an undeclared identifier.  `diverge` is the fuel-exhaustion
marker for the non-terminating matcher loop (see module comment). -/
inductive PErr where
  | requiredOption (name : String)
  | unknownProcessor (kind : String)
  | referenceError (name : String)
  | typeError (msg : String)
  | ambiguous (t1 t2 header : String)
  | uncategorizable (headers : List String)
  | noProcessor (header typeName : String)
  | diverge
deriving DecidableEq

/-- JS falsiness of an option value (`!val`): empty string and zero. -/
def falsyOpt : OptVal → Bool
  | .str s => s == ""
  | .num n => n == 0

/-- `requiredOption(options, name)`: throws `RequiredOption` when the option
is absent or falsy. -/
def requiredOption (opts : List (String × OptVal)) (name : String) :
    Except PErr OptVal :=
  match objLookup opts name with
  | none => .error (.requiredOption name)
  | some v => if falsyOpt v then .error (.requiredOption name) else .ok v

/-- How JS stringifies an option value used as an object key. -/
def optKey : OptVal → String
  | .str s => s
  | .num n => toString n

/-- A raw value accumulated by the `ObjectBuilder`: header captures are
strings; the reserved `_meta` slot holds the warnings object
(warn-type → list of messages). -/
inductive RVal where
  | str (s : String)
  | meta (m : List (String × List String))
deriving DecidableEq

/-- A value of a cooked record as produced by the field processors. -/
inductive FVal where
  | str (s : String)
  | rows (r : List (List (String × String)))
  | contacts (c : List (Option String × Option String))
  | meta (m : List (String × List String))
deriving DecidableEq

/-- A cooked record before filing: semantic field name → value. -/
abbrev FRec := List (String × FVal)

/-- A value of a filed top-level record: a processor-produced value, a
`belongs_to` child array, or a processor-produced array value onto which
child records were subsequently pushed (`pushed v l` is the JS array
holding `v`'s elements followed by the records `l`).  Children are
themselves processor outputs: the owner search runs over top-level records
only, so child records never receive children of their own. -/
inductive CVal where
  | flat (v : FVal)
  | children (l : List FRec)
  | pushed (v : FVal) (l : List FRec)
deriving DecidableEq

/-- A filed top-level record. -/
abbrev CRec := List (String × CVal)

/-- View a freshly cooked record as a top-level record. -/
def asTopLevel (r : FRec) : CRec :=
  r.map (fun p => (p.1, CVal.flat p.2))

/-- The raw value as a string, for processors that call string methods on it
(`value.trim()`, `splitLines(value)`); calling them on the `_meta` object
would be a `TypeError`. -/
def asStr : RVal → Except PErr String
  | .str s => .ok s
  | .meta _ => .error (.typeError "string method on object value")

/-- The raw value copied verbatim by the `_meta` branch of
`FieldDictionary.process`. -/
def metaOf : RVal → FVal
  | .str s => .str s
  | .meta m => .meta m

/-- The trimmed, blank-line-free data lines of a `field_followed_by_table`
capture (everything after the first line). -/
def tableDataLines (value : String) : List String :=
  (((splitLines value).drop 1).map trimS).filter (fun s => s ≠ "")

/-- The `field_followed_by_table` processor body.  The first line (trimmed)
is the scalar field.  When the data-line count does not divide the column
count the source evaluates `console.log(trimmedLines)` — `trimmedLines` is
an undeclared identifier, so in strict mode a `ReferenceError` is raised
there and the `throw` naming the header and the line count on the next line
is unreachable.  `numColumns = 0` makes the JS modulus `NaN != 0`, also the
error branch.  Rows are `_.zipObject(colNames, rowElems)`, modelled as the
zip list (duplicate column names, which would collapse, are outside the
modelled inputs). -/
def fieldFollowedByTable (fieldName tableName : String) (numColumns : Nat)
    (obj : FRec) (value : String) : Except PErr FRec :=
  let lines := splitLines value
  let simpleVal := trimS (lines.headD "")
  let obj := objSet obj fieldName (.str simpleVal)
  let tableLines := tableDataLines value
  if numColumns == 0 || tableLines.length % numColumns != 0 then
    .error (.referenceError "trimmedLines")
  else
    let numRows := tableLines.length / numColumns - 1
    let colNames := tableLines.take numColumns
    let rows := (List.range numRows).map (fun i =>
      List.zip colNames ((tableLines.drop ((i + 1) * numColumns)).take numColumns))
    .ok (objSet obj tableName (.rows rows))

/-- `pre` is a prefix of `s` (the anchored `/^pre/` test). -/
def startsWithS (pre s : String) : Bool :=
  s.data.take pre.data.length == pre.data

/-- The rest of `s` after its first `n` characters. -/
def dropS (s : String) (n : Nat) : String :=
  ⟨s.data.drop n⟩

/-- `/^Contact Name (.*)$/` applied to a line. -/
def contactNameOf (line : String) : Option String :=
  if startsWithS "Contact Name " line then some (dropS line "Contact Name ".data.length)
  else none

/-- `/^Telephone (.*)$/` applied to a line. -/
def telephoneOf (line : String) : Option String :=
  if startsWithS "Telephone " line then some (dropS line "Telephone ".data.length)
  else none

/-- The `i += 2` contact loop of `primary_secondary_location`: each pair of
lines yields a contact when a name or a phone was recognized. -/
def parseContacts : List String → List (Option String × Option String)
  | [] => []
  | [nameLine] =>
    match contactNameOf nameLine with
    | none => []
    | some n => [(some n, none)]
  | nameLine :: phoneLine :: rest =>
    let name := contactNameOf nameLine
    let phone := telephoneOf phoneLine
    let tail := parseContacts rest
    if name.isSome || phone.isSome then (name, phone) :: tail else tail

/-- `Array.prototype.slice(start, stop)` with JS negative-index
normalization (`findIndex` returns `-1` when nothing matches, and the
source feeds that straight into `slice`). -/
def sliceJs (l : List α) (start stop : Int) : List α :=
  let len : Int := l.length
  let norm : Int → Nat := fun i =>
    (if i < 0 then max (len + i) 0 else min i len).toNat
  ((l.drop (norm start)).take (norm stop - norm start))

/-- `Array.prototype.findIndex`, `-1` when absent. -/
def findIdxJs (p : α → Bool) (l : List α) : Int :=
  match l.findIdx? p with
  | some i => (i : Int)
  | none => -1

/-- The `primary_secondary_location` processor body. -/
def primarySecondaryLocation (locationField contactsField : String)
    (obj : FRec) (value : String) : Except PErr FRec :=
  let lines := splitLines value
  let contactIndex : Int := findIdxJs (fun l => startsWithS "Contact " l) lines
  let contactLines := (sliceJs lines contactIndex lines.length).filter
    (fun s => trimS s ≠ "")
  let contacts := parseContacts contactLines
  let secondaryLocationHeader : Int :=
    findIdxJs (fun l => startsWithS "Secondary Location" l) lines
  let locationLines := sliceJs lines (secondaryLocationHeader + 1) contactIndex
  let location := trimS (String.intercalate "\n" locationLines)
  .ok (objSet (objSet obj contactsField (.contacts contacts))
        locationField (.str location))

/-- `FIELD_TYPES[cfg.type](opts)` followed by running the processor on the
capture: the factory validates its required options first (in source order),
then the returned closure is applied.  An unknown kind makes
`FIELD_TYPES[...]` `undefined` and the call a `TypeError`; it is surfaced as
`unknownProcessor`.  A non-numeric `num_columns` (a JS coercion case no
dictionary uses) is surfaced as `typeError`. -/
def applyProcessor (cfg : FieldCfg) (obj : FRec) (v : RVal) :
    Except PErr FRec :=
  match cfg.type with
  | "trimmed" => do
    let f ← requiredOption cfg.opts "field"
    let s ← asStr v
    .ok (objSet obj (optKey f) (.str (trimS s)))
  | "field_followed_by_table" => do
    let fn ← requiredOption cfg.opts "field_name"
    let tn ← requiredOption cfg.opts "table_name"
    let nc ← requiredOption cfg.opts "num_columns"
    match nc with
    | .num n => do
      let s ← asStr v
      fieldFollowedByTable (optKey fn) (optKey tn) n obj s
    | .str _ => .error (.typeError "num_columns must be numeric")
  | "primary_secondary_location" => do
    let lf ← requiredOption cfg.opts "location_field"
    let cf ← requiredOption cfg.opts "contacts_field"
    let s ← asStr v
    primarySecondaryLocation (optKey lf) (optKey cf) obj s
  | k => .error (.unknownProcessor k)

/-- `FieldDictionary` lookup: the type definition stored under a name. -/
def lookupType (d : Dict) (t : String) : Option TypeDef :=
  objLookup d.types t

/-- `FieldDictionary.allHeaders()`: every literal header declared across all
types, `fields` values first then `fields_by_header` keys, in insertion
order.  (The reserved `options` entry declares no fields and contributes
nothing, so it is not represented in `Dict.types`.) -/
def allHeaders (d : Dict) : List String :=
  d.types.foldl
    (fun acc p =>
      acc ++ p.2.fields.map (fun q => q.2) ++ p.2.fields_by_header.map (fun q => q.1))
    []

/-- `FieldDictionary.typesForHeader(header)`: every type name declaring the
header, each at most once, in insertion order. -/
def typesForHeader (d : Dict) (header : String) : List String :=
  d.types.filterMap (fun p =>
    if p.2.fields.any (fun q => q.2 == header)
        || p.2.fields_by_header.any (fun q => q.1 == header) then
      some p.1
    else none)

/-- `FieldDictionary.ownerOf(typeName)`. -/
def ownerOf (d : Dict) (t : String) : Option Owner :=
  match lookupType d t with
  | some td => td.belongs_to
  | none => none

/-- `FieldDictionary.process(obj, typeName, header, value)`: `_meta` is
copied verbatim; a header in `fields` runs the trimmed-scalar policy (the
factory also requires the `field` option, which is falsy when the semantic
field name is empty); a header in `fields_by_header` runs its configured
processor; otherwise the no-processor error. -/
def dictProcess (d : Dict) (typeName : String) (obj : FRec) (header : String)
    (v : RVal) : Except PErr FRec :=
  if header == "_meta" then .ok (objSet obj "_meta" (metaOf v))
  else
    match lookupType d typeName with
    | none => .error (.typeError "no type definition")
    | some td =>
      match td.fields.find? (fun p => p.2 == header) with
      | some fp =>
        if fp.1 == "" then .error (.requiredOption "field")
        else do
          let s ← asStr v
          .ok (objSet obj fp.1 (.str (trimS s)))
      | none =>
        match td.fields_by_header.find? (fun p => p.1 == header) with
        | some hp => applyProcessor hp.2 obj v
        | none => .error (.noProcessor header typeName)

/-- Does the literal `t` occur in `s` starting at position `j`? -/
def isSubstrAt (s : String) (j : Nat) (t : String) : Bool :=
  decide (j + t.length ≤ s.length)
    && ((s.data.drop j).take t.length == t.data)

/-- The alternation of escaped header literals tried at one position:
first alternative first (JS alternation order).  The empty term list is the
empty pattern, which matches the empty string everywhere. -/
def matchTermAt (terms : List String) (s : String) (j : Nat) : Option String :=
  if terms.isEmpty then some ""
  else terms.find? (fun t => isSubstrAt s j t)

/-- One `regexp.exec(s)` call of the global header regex with
`lastIndex = i`: the match at the leftmost position `≥ i` (positions up to
and including `s.length`), `none` past the end or when nothing matches. -/
def execStep (terms : List String) (s : String) (i : Nat) :
    Option (Nat × String) :=
  (List.range' i (s.length + 1 - i)).findSome?
    (fun j => (matchTermAt terms s j).map (fun m => (j, m)))

/-- `allMatches(regexp, s)` with explicit fuel: each iteration advances
`lastIndex` by the match length, so a zero-length match repeats forever and
no fuel suffices. -/
def allMatchesF (terms : List String) (s : String) :
    Nat → Nat → Option (List (Nat × String))
  | 0, _ => none
  | fuel + 1, i =>
    match execStep terms s i with
    | none => some []
    | some (j, m) =>
      (allMatchesF terms s fuel (j + m.length)).map (fun r => (j, m) :: r)

/-- `allMatches` with the fuel that suffices whenever every header is a
non-empty literal (proved below). -/
def allMatchesRun (terms : List String) (s : String) :
    Option (List (Nat × String)) :=
  allMatchesF terms s (s.length + 2) 0

/-- A matched or unmatched span of one line. -/
structure StringRegion where
  value : String
  isMatch : Bool
deriving DecidableEq

/-- `string.slice(a, b)` for in-range ascending indices. -/
def strSlice (s : String) (a b : Nat) : String :=
  ⟨(s.data.drop a).take (b - a)⟩

/-- The region-assembly loop of `splitByMatches`: an unmatched gap before
each match whose index is past the cursor, the match itself, and a final
unmatched region when the cursor is short of the end or no region was
produced at all. -/
def buildRegions (s : String) (ms : List (Nat × String)) : List StringRegion :=
  let step := fun (acc : List StringRegion × Nat) (m : Nat × String) =>
    let res := if acc.2 != m.1 then acc.1 ++ [⟨strSlice s acc.2 m.1, false⟩] else acc.1
    (res ++ [⟨m.2, true⟩], m.1 + m.2.length)
  let fin := ms.foldl step ([], 0)
  if fin.2 != s.length || fin.1.isEmpty then
    fin.1 ++ [⟨strSlice s fin.2 s.length, false⟩]
  else fin.1

/-- `splitByMatches(regex, string)`; `none` when the matcher loop does not
terminate (degenerate header set). -/
def splitByMatches (terms : List String) (s : String) :
    Option (List StringRegion) :=
  (allMatchesRun terms s).map (buildRegions s)

/-- `buildDictionaryRegex(dictionary)`: the compiled alternation, modelled
by its list of header literals (see module comment on `escapeRegExp`). -/
def buildDictionaryRegex (d : Dict) : List String :=
  allHeaders d

/-- An atom of the record-separator regex fragment: a literal character or
`c+`. -/
inductive RxAtom where
  | ch (c : Char)
  | plus (c : Char)
deriving DecidableEq

/-- The record-separator regex fragment: optional `^` and `$` anchors around
a sequence of atoms. -/
structure Rx where
  anchorStart : Bool
  anchorEnd : Bool
  atoms : List RxAtom
deriving DecidableEq

/-- Compile the pattern body: a character followed by `+` is a plus atom,
anything else a literal. -/
def compileBody : List Char → List RxAtom
  | [] => []
  | c :: '+' :: rest => .plus c :: compileBody rest
  | c :: rest => .ch c :: compileBody rest

/-- Strip a leading `^` anchor. -/
def rxStart : List Char → Bool × List Char
  | '^' :: r => (true, r)
  | cs => (false, cs)

/-- Strip a trailing `$` anchor. -/
def rxEnd (cs : List Char) : Bool × List Char :=
  match cs.getLast? with
  | some '$' => (true, cs.dropLast)
  | _ => (false, cs)

/-- `new RegExp(pattern)` for patterns in the modelled fragment: a leading
`^` and a trailing `$` are anchors, the rest is the body. -/
def compileRx (p : String) : Rx :=
  ⟨(rxStart p.data).1, (rxEnd (rxStart p.data).2).1,
   compileBody (rxEnd (rxStart p.data).2).2⟩

/-- Match the atom sequence against a prefix of the character list;
`endA` demands the match extend to the end (`$`).  `c+` is one or more
copies of `c`, with backtracking over how many. -/
def matchAtoms : List RxAtom → List Char → Bool → Bool
  | [], rest, endA => !endA || rest.isEmpty
  | .ch c :: atoms, r :: rest, endA => c == r && matchAtoms atoms rest endA
  | .ch _ :: _, [], _ => false
  | .plus c :: atoms, r :: rest, endA =>
    c == r && (matchAtoms atoms rest endA || matchAtoms (.plus c :: atoms) rest endA)
  | .plus _ :: _, [], _ => false

/-- `regex.exec(line)` as a boolean: does the pattern match somewhere
(anchored at the start only when the pattern says so)? -/
def execRx (rx : Rx) (s : String) : Bool :=
  if rx.anchorStart then matchAtoms rx.atoms s.data rx.anchorEnd
  else (List.range (s.length + 1)).any
    (fun j => matchAtoms rx.atoms (s.data.drop j) rx.anchorEnd)

/-- `DEFAULT_RECORD_SEPARATOR = /^_+$/`. -/
def DEFAULT_RECORD_SEPARATOR : Rx :=
  compileRx "^_+$"

/-- `FieldDictionary.recordSeparator`: compile `options.record_separator`
when present and truthy — `if (sep)` rejects the empty string, so a
declared empty pattern falls back to the default — with no anchoring
added; else the default. -/
def recordSeparator (d : Dict) : Rx :=
  match d.record_separator with
  | some sep => if sep == "" then DEFAULT_RECORD_SEPARATOR else compileRx sep
  | none => DEFAULT_RECORD_SEPARATOR

/-- The `ObjectBuilder`'s raw object: header → accumulated value, plus the
reserved `_meta` slot, in insertion order. -/
abbrev Builder := List (String × RVal)

/-- JS truthiness of a stored raw value: an empty string is falsy, any other
string and the `_meta` object are truthy. -/
def truthyR : RVal → Bool
  | .str s => s != ""
  | .meta _ => true

/-- How a stored raw value renders inside a concatenated warning message. -/
def rvalText : RVal → String
  | .str s => s
  | .meta _ => "[object Object]"

/-- A single apostrophe, as interpolated by the warning messages. -/
def apos : String :=
  ⟨[Char.ofNat 39]⟩

/-- `ObjectBuilder.warn(warnType, message)`: create the `_meta` object and
the per-warn-type list on demand, then append the message.  (The `_meta`
slot, when present, holds the warnings object: a dictionary declaring the
literal header `_meta` is outside the modelled inputs.) -/
def bwarn (b : Builder) (warnType msg : String) : Builder :=
  let m := match objLookup b "_meta" with
    | some (.meta m) => m
    | _ => []
  let entry := match objLookup m warnType with
    | some l => l ++ [msg]
    | none => [msg]
  objSet b "_meta" (.meta (objSet m warnType entry))

/-- `ObjectBuilder.store(field, value)`: when the field already holds a
truthy value, append the repeated-value warning first; then overwrite with
the latest value. -/
def bstore (b : Builder) (field v : String) : Builder :=
  let b1 := match objLookup b field with
    | some old =>
      if truthyR old then
        bwarn b "ignored_text"
          ("Repeated value for " ++ apos ++ field ++ apos ++ ", " ++ apos
            ++ rvalText old ++ apos)
      else b
    | none => b
  objSet b1 field (.str v)

/-- `ObjectBuilder.isEmpty`: no keys, or exactly the `_meta` key. -/
def bIsEmpty (b : Builder) : Bool :=
  b.isEmpty || b.map (fun p => p.1) == ["_meta"]

/-- The vote a captured header casts in `identifyObjectType`: the owning
type when the header is declared by exactly one type, nothing otherwise. -/
def voteOf (d : Dict) (h : String) : Option String :=
  match typesForHeader d h with
  | [t] => some t
  | _ => none

/-- The `forEach` body of `identifyObjectType`, with the accumulator made
explicit: a header declared by exactly one type votes; a vote conflicting
with the accumulated type throws. -/
def identifyAux (d : Dict) : List String → Option String → Except PErr (Option String)
  | [], acc => .ok acc
  | h :: hs, acc =>
    match typesForHeader d h with
    | [t] =>
      match acc with
      | none => identifyAux d hs (some t)
      | some t0 =>
        if t0 == t then identifyAux d hs (some t0)
        else .error (.ambiguous t0 t h)
    | _ => identifyAux d hs acc

/-- `identifyObjectType(rawFields, dictionary)` over the capture's header
list (its key set in insertion order). -/
def identifyObjectType (d : Dict) (hs : List String) : Except PErr (Option String) :=
  identifyAux d hs none

/-- Run `FieldDictionary.process` over every raw header/value pair in
insertion order, building the cooked record. -/
def processAll (d : Dict) (t : String) (raw : Builder) : Except PErr FRec :=
  raw.foldlM (fun acc p => dictProcess d t acc p.1 p.2) []

/-- `o[matchField] === result[matchField]`: strict equality of the owner
candidate's field against the cooked record's.  Strings compare by value,
two absent fields are both `undefined` and equal, and any non-primitive
comparison is reference equality of distinct objects, hence false. -/
def jsEqCF : Option CVal → Option FVal → Bool
  | none, none => true
  | some (.flat (.str a)), some (.str b) => a == b
  | _, _ => false

/-- JS truthiness of a filed record's value. -/
def truthyC : CVal → Bool
  | .flat (.str s) => s != ""
  | .flat _ => true
  | .children _ => true
  | .pushed _ _ => true

/-- `ownerObj[owner.as].push(result)`: create the array when the slot is
absent or falsy (the empty string), push onto an existing array — a child
array, or a processor-produced `rows`/`contacts` array, which JS happily
extends with the record — and raise a `TypeError` when the slot holds a
truthy non-array (a non-empty string, or the `_meta` object). -/
def appendChild (o : CRec) (slot : String) (child : FRec) : Except PErr CRec :=
  match objLookup o slot with
  | some (.children l) => .ok (objSet o slot (.children (l ++ [child])))
  | some (.pushed v l) => .ok (objSet o slot (.pushed v (l ++ [child])))
  | some (.flat (.rows r)) => .ok (objSet o slot (.pushed (.rows r) [child]))
  | some (.flat (.contacts c)) => .ok (objSet o slot (.pushed (.contacts c) [child]))
  | some (.flat (.str str1)) =>
    if str1 == "" then .ok (objSet o slot (.children [child]))
    else .error (.typeError "push on non-array")
  | some (.flat (.meta _)) => .error (.typeError "push on non-array")
  | none => .ok (objSet o slot (.children [child]))

/-- `cookObject(rawFields, currObjects, dictionary)`: classify, process
every capture, then file the record — append to the matched owner's child
array, drop it (warning logged to the console only) when no owner matches,
or append it to the top-level output when the type has no ownership rule. -/
def cookObject (d : Dict) (raw : Builder) (objs : List CRec) :
    Except PErr (List CRec) := do
  let t? ← identifyObjectType d (raw.map (fun p => p.1))
  match t? with
  | none => .error (.uncategorizable (raw.map (fun p => p.1)))
  | some t => do
    let result ← processAll d t raw
    match ownerOf d t with
    | none => .ok (objs ++ [asTopLevel result])
    | some ow =>
      match objs.findIdx? (fun o =>
          jsEqCF (objLookup o ow.match_on) (objLookup result ow.match_on)) with
      | none => .ok objs
      | some i => do
        let o := (objs.get? i).getD []
        let o2 ← appendChild o ow.as result
        .ok (objs.set i o2)

/-- The open multi-line field accumulator. -/
structure MF where
  header : String
  value : String
deriving DecidableEq

/-- The per-record scanning state: the `ObjectBuilder` and the open
multi-line field. -/
structure WalkState where
  builder : Builder
  mf : Option MF
deriving DecidableEq

/-- `finishMultilineField()`: store the open field into the builder. -/
def finishMultilineField (w : WalkState) : WalkState :=
  match w.mf with
  | none => w
  | some m => ⟨bstore w.builder m.header m.value, none⟩

/-- Finalize the open field when one is open (`if (multilineField)
finishMultilineField()`). -/
def finishIfOpen (w : WalkState) : WalkState :=
  if w.mf.isSome then finishMultilineField w else w

/-- The region walk of `OrderParser.parse` (the indexed `for` loop):
an unmatched region extends the open field or, with no field open and
non-blank text, records an ignored-text warning; a matched region finalizes
any open field and opens a new one whose value is the immediately following
region — whatever its kind — consumed by the loop's `i++`, or empty when
the header is the last region of the line. -/
def walkParts : List StringRegion → WalkState → WalkState
  | [], w => w
  | r :: rest, w =>
    if r.isMatch then
      let w1 := finishIfOpen w
      match rest with
      | [] => ⟨w1.builder, some ⟨r.value, ""⟩⟩
      | p :: rest2 => walkParts rest2 ⟨w1.builder, some ⟨r.value, p.value⟩⟩
    else
      let w1 :=
        match w.mf with
        | some m => ⟨w.builder, some ⟨m.header, m.value ++ r.value⟩⟩
        | none =>
          if trimS r.value ≠ "" then
            ⟨bwarn w.builder "ignored_text"
              ("Ignored header: " ++ apos ++ r.value ++ apos), none⟩
          else w
      walkParts rest w1

/-- The whole scanning state: produced records plus the per-record state. -/
structure ScanState where
  objects : List CRec
  ws : WalkState
deriving DecidableEq

/-- One `line` event of `OrderParser.parse`: a separator line finalizes the
open field, cooks the non-empty builder and resets the record state; any
other line first extends an open field with a newline, then walks its
regions. -/
def stepLine (d : Dict) (st : ScanState) (line : String) :
    Except PErr ScanState :=
  if execRx (recordSeparator d) line then
    let w := finishIfOpen st.ws
    if bIsEmpty w.builder then .ok ⟨st.objects, ⟨[], none⟩⟩
    else do
      let objs ← cookObject d w.builder st.objects
      .ok ⟨objs, ⟨[], none⟩⟩
  else
    let w0 : WalkState :=
      match st.ws.mf with
      | some m => ⟨st.ws.builder, some ⟨m.header, m.value ++ "\n"⟩⟩
      | none => st.ws
    match splitByMatches (buildDictionaryRegex d) line with
    | none => .error .diverge
    | some parts => .ok ⟨st.objects, walkParts parts w0⟩

/-- The scanning state at the start of a parse. -/
def emptyScan : ScanState :=
  ⟨[], ⟨[], none⟩⟩

/-- Fold the line handler over a list of input lines. -/
def runLines (d : Dict) (st : ScanState) (lines : List String) :
    Except PErr ScanState :=
  lines.foldlM (stepLine d) st

/-- The `close` handler: finalize the open field and cook the final
non-empty builder, yielding the parse result. -/
def finishEOF (d : Dict) (st : ScanState) : Except PErr (List CRec) :=
  let w := finishIfOpen st.ws
  if bIsEmpty w.builder then .ok st.objects
  else cookObject d w.builder st.objects

/-- `OrderParser.parse` over an explicit line list. -/
def parseLines (d : Dict) (lines : List String) : Except PErr (List CRec) := do
  let st ← runLines d emptyScan lines
  finishEOF d st

/-- `OrderParser.parse` on an in-memory string input. -/
def parseString (d : Dict) (text : String) : Except PErr (List CRec) :=
  parseLines d (readLines text)

/-- The `OrderParser` instance state built by the constructor. -/
structure OrderParser where
  dictionary : Dict
  regexTerms : List String
deriving DecidableEq

/-- The `OrderParser` constructor: wrap the dictionary and build the header
regex.  Neither `FieldDictionary`'s `data` setter nor `buildDictionaryRegex`
invokes any processor factory, so construction cannot raise; the `Except`
shape records exactly that. -/
def OrderParser.new (d : Dict) : Except PErr OrderParser :=
  .ok ⟨d, buildDictionaryRegex d⟩

/-- Does no type of the dictionary declare a `belongs_to` rule? -/
def noOwners (d : Dict) : Bool :=
  d.types.all (fun p => p.2.belongs_to.isNone)

/-- No cross-record ownership from the records of `lb` into the
already-produced records `ra`: running the scanner over `lb` (and the final
flush) on top of the seeded top-level records `ra` produces exactly `ra`
followed by what `lb` produces alone.  This holds trivially when the
dictionary declares no `belongs_to` rule (`noOwners`), and also for
dictionaries with ownership whenever every owned record of `lb` resolves
within `lb`'s own records or drops — exactly the claim's proviso. -/
def noCrossOwnership (d : Dict) (ra : List CRec) (lb : List String) : Prop :=
  ((runLines d ⟨ra, ⟨[], none⟩⟩ lb).bind (finishEOF d))
    = (parseLines d lb).map (fun r => ra ++ r)

/-- Modelled from the spec: "First non-empty-trimmed line is the scalar
field value."  This follows the spec's words (the first line whose trimmed
form is non-empty), to be compared with what `fieldFollowedByTable`
actually stores. -/
def specFirstNonEmptyTrimmedLine (lines : List String) : Option String :=
  (lines.map trimS).find? (fun s => s ≠ "")

-- Decidable equality of parse results.
deriving instance DecidableEq for Except

/-- A dictionary declaring one type with the single scalar header `Foo:`
(the dictionary of the repository's basic tests). -/
def dictFoo : Dict :=
  ⟨[("Order", ⟨[("foo", "Foo:")], [], none⟩)], none⟩

/-- A dictionary declaring the two scalar headers `Foo:` and `Bar:`. -/
def dictFooBar : Dict :=
  ⟨[("Order", ⟨[("foo", "Foo:"), ("bar", "Bar:")], [], none⟩)], none⟩

/-- A dictionary whose only header `H` is configured with a
`field_followed_by_table` processor missing all of its required options. -/
def dictTableOnly : Dict :=
  ⟨[("Order", ⟨[], [("H", ⟨"field_followed_by_table", []⟩)], none⟩)], none⟩

/-- A dictionary with an owner type and a child type declaring
`belongs_to {match_on: "foo", as: "suborders"}`. -/
def dictOwn : Dict :=
  ⟨[("Order", ⟨[("foo", "Foo:")], [], none⟩),
    ("Suborder", ⟨[("foo", "foo:"), ("bar", "bar:")], [], some ⟨"foo", "suborders"⟩⟩)],
   none⟩

/-- The dictionary declaring no types (and hence no headers). -/
def dictEmpty : Dict :=
  ⟨[], none⟩

/-- `dictFoo` with the custom, unanchored record-separator pattern `---`. -/
def dictDash : Dict :=
  ⟨[("Order", ⟨[("foo", "Foo:")], [], none⟩)], some "---"⟩

/-- A dictionary whose only header runs the `primary_secondary_location`
processor. -/
def dictLoc : Dict :=
  ⟨[("Order", ⟨[], [("Primary Location",
      ⟨"primary_secondary_location",
       [("location_field", OptVal.str "loc"),
        ("contacts_field", OptVal.str "contacts")]⟩)],
    none⟩)], none⟩

/-- The votes a capture's header list casts during classification: one vote
per header declared by exactly one type. -/
def votesOf (d : Dict) (hs : List String) : List String :=
  hs.filterMap (voteOf d)

/-- Does `t` occur anywhere in `s` (unanchored substring search)? -/
def isSubstrOf (t s : String) : Bool :=
  (List.range (s.length + 1)).any (fun j => isSubstrAt s j t)

/-- A separator pattern that is a non-empty plain literal: no character
that `new RegExp` treats specially (anchors, quantifiers, dot, brackets,
braces, alternation, backslash), so the compiled regex matches exactly the
literal text, and not empty, so the `if (sep)` truthiness check compiles it
rather than falling back to the default. -/
def plainPattern (p : String) : Bool :=
  !(p == "") && p.data.all (fun c =>
    !(c == '^' || c == '$' || c == '+' || c == '.' || c == '*' || c == '?'
      || c == '(' || c == ')' || c == '[' || c == ']'
      || c == Char.ofNat 123 || c == Char.ofNat 125
      || c == '|' || c == '\\'))

/-- C2: on a `field_followed_by_table` capture whose trimmed, blank-free
data-line count (here 1) does not divide `num_columns` (here 2), the parse
does fail — but with the strict-mode `ReferenceError` raised by
`console.log(trimmedLines)` (an undeclared identifier), not with the
malformed-table error naming the header and the line count: that `throw`
is dead code. -/
theorem c2_theorem :
    (tableDataLines "a\nb").length = 1
    ∧ (tableDataLines "a\nb").length % 2 ≠ 0
    ∧ fieldFollowedByTable "f" "t" 2 [] "a\nb" =
        .error (.referenceError "trimmedLines") := by
  decide

/-- C3 counterexample: the capture `"\nX"` with one column has data-line
count 1 (so `R mod C = 0` and it is in the claim's scope), but the stored
scalar is the empty string — the first line of the capture, trimmed — and
not `"X"`, the first non-empty-trimmed line the claim requires. -/
theorem c3_counterexample :
    fieldFollowedByTable "f" "t" 1 [] "\nX" =
      .ok [("f", FVal.str ""), ("t", FVal.rows [])]
    ∧ specFirstNonEmptyTrimmedLine (splitLines "\nX") = some "X"
    ∧ (tableDataLines "\nX").length % 1 = 0 := by
  decide

/-- C3 amended: for a capture whose trimmed, blank-free data lines number
`R` with `R mod C = 0` (`C ≥ 1`, distinct field names), the processor
stores the **first line of the capture, trimmed** (not the first non-empty
line) as the scalar field, and produces exactly `R / C - 1` row objects
(natural-number arithmetic, so zero rows when `R = 0`), the `i`-th row
zipping the first `C` data lines against the `i`-th following group of
`C` lines. -/
theorem c3_theorem (fn tn : String) (C : Nat) (value : String)
    (hfn : fn ≠ tn) (hC : 0 < C)
    (hmod : (tableDataLines value).length % C = 0) :
    ∃ rows,
      fieldFollowedByTable fn tn C [] value =
        .ok [(fn, .str (trimS ((splitLines value).headD ""))), (tn, .rows rows)]
      ∧ rows.length = (tableDataLines value).length / C - 1
      ∧ ∀ i (hi : i < rows.length),
          rows.get ⟨i, hi⟩ =
            List.zip ((tableDataLines value).take C)
              (((tableDataLines value).drop ((i + 1) * C)).take C) := by
  refine ⟨(List.range ((tableDataLines value).length / C - 1)).map (fun i =>
      List.zip ((tableDataLines value).take C)
        (((tableDataLines value).drop ((i + 1) * C)).take C)), ?_, ?_, ?_⟩
  · have hC0 : (C == 0) = false := by
      simp [Nat.pos_iff_ne_zero.mp hC]
    have hfn2 : (fn == tn) = false := by
      simp [hfn]
    simp [fieldFollowedByTable, hC0, hmod, objSet, objLookup, hfn2]
  · simp
  · intro i hi
    simp [List.get_eq_getElem]

/-- C3 witness: a two-column table capture with one data row. -/
theorem c3_witness :
    (0 : Nat) < 2
    ∧ ∃ rows,
        fieldFollowedByTable "f" "t" 2 [] "H\na\nb\nc\nd" =
          .ok [("f", .str (trimS ((splitLines "H\na\nb\nc\nd").headD ""))),
               ("t", .rows rows)]
        ∧ rows.length = (tableDataLines "H\na\nb\nc\nd").length / 2 - 1
        ∧ ∀ i (hi : i < rows.length),
            rows.get ⟨i, hi⟩ =
              List.zip ((tableDataLines "H\na\nb\nc\nd").take 2)
                (((tableDataLines "H\na\nb\nc\nd").drop ((i + 1) * 2)).take 2) :=
  ⟨by decide, c3_theorem "f" "t" 2 "H\na\nb\nc\nd" (by decide) (by decide) (by decide)⟩

/-- C1 counterexample: for the dictionary whose only processor
configuration is missing all required options, constructing the parser
succeeds (no configuration error is raised at dictionary-load time), and
the missing-required-option error surfaces only when a parse touches the
affected header — contradicting "raised immediately... never deferred to
the first parse invocation". -/
theorem c1_counterexample :
    OrderParser.new dictTableOnly = .ok ⟨dictTableOnly, ["H"]⟩
    ∧ parseString dictTableOnly "H x" = .error (.requiredOption "field_name") := by
  decide

/-- C1 amended: the `OrderParser` constructor performs no processor
validation and never raises; a missing required option (shown for
`field_name` of `field_followed_by_table`) and an unknown processor kind
surface at parse time, when `FieldDictionary.process` first handles a
capture of the affected header. -/
theorem c1_theorem :
    (∀ d : Dict, OrderParser.new d = .ok ⟨d, buildDictionaryRegex d⟩)
    ∧ (∀ (d : Dict) (t : String) (td : TypeDef) (h h0 : String) (cfg : FieldCfg)
        (obj : FRec) (v : String),
        lookupType d t = some td →
        h ≠ "_meta" →
        td.fields.find? (fun p => p.2 == h) = none →
        td.fields_by_header.find? (fun p => p.1 == h) = some (h0, cfg) →
        cfg.type = "field_followed_by_table" →
        objLookup cfg.opts "field_name" = none →
        dictProcess d t obj h (.str v) = .error (.requiredOption "field_name"))
    ∧ (∀ (d : Dict) (t : String) (td : TypeDef) (h h0 : String) (cfg : FieldCfg)
        (obj : FRec) (v : String),
        lookupType d t = some td →
        h ≠ "_meta" →
        td.fields.find? (fun p => p.2 == h) = none →
        td.fields_by_header.find? (fun p => p.1 == h) = some (h0, cfg) →
        cfg.type ≠ "trimmed" →
        cfg.type ≠ "field_followed_by_table" →
        cfg.type ≠ "primary_secondary_location" →
        dictProcess d t obj h (.str v) = .error (.unknownProcessor cfg.type)) := by
  refine ⟨fun d => rfl, ?_, ?_⟩
  · intro d t td h h0 cfg obj v hlk hmeta hf1 hf2 hty hopt
    have hm : (h == "_meta") = false := by simp [hmeta]
    simp only [dictProcess, hm, Bool.false_eq_true, if_false, hlk, hf1, hf2,
      applyProcessor, hty, requiredOption, hopt, bind, Except.bind]
  · intro d t td h h0 cfg obj v hlk hmeta hf1 hf2 hty1 hty2 hty3
    have hm : (h == "_meta") = false := by simp [hmeta]
    simp only [dictProcess, hm, Bool.false_eq_true, if_false, hlk, hf1, hf2,
      applyProcessor]

/-- C1 witness: the amended behaviour at the concrete dictionary
`dictTableOnly`. -/
theorem c1_witness :
    OrderParser.new dictTableOnly = .ok ⟨dictTableOnly, buildDictionaryRegex dictTableOnly⟩
    ∧ dictProcess dictTableOnly "Order" [] "H" (.str "x") =
        .error (.requiredOption "field_name") :=
  ⟨c1_theorem.1 dictTableOnly,
   c1_theorem.2.1 dictTableOnly "Order" ⟨[], [("H", ⟨"field_followed_by_table", []⟩)], none⟩
     "H" "H" ⟨"field_followed_by_table", []⟩ [] "x" (by decide) (by decide) (by decide)
     (by decide) (by decide) (by decide)⟩

/-- C4 counterexample: on the line `"Foo:Bar:"` under `dictFooBar` the
regions are two adjacent header matches.  The region walk consumes the
matched region `"Bar:"` as the same-line value of the just-opened `Foo:`
field — so the record is `{foo: "Bar:"}` with no `bar` field — refuting the
claim that a following region is consumed **only if** it is unmatched and
that a following header region is processed as its own header. -/
theorem c4_counterexample :
    splitByMatches (buildDictionaryRegex dictFooBar) "Foo:Bar:" =
      some [⟨"Foo:", true⟩, ⟨"Bar:", true⟩]
    ∧ walkParts [⟨"Foo:", true⟩, ⟨"Bar:", true⟩] ⟨[], none⟩ =
        ⟨[], some ⟨"Foo:", "Bar:"⟩⟩
    ∧ parseString dictFooBar "Foo:Bar:" =
        .ok [[("foo", CVal.flat (FVal.str "Bar:"))]] := by
  decide

/-- C4 amended: when a header region opens a new field, the immediately
following region — whether matched or unmatched — is consumed as the
header's same-line value and skipped by the walk; only when the header is
the last region of the line does the new field start with an empty value. -/
theorem c4_theorem :
    (∀ (h : String) (p : StringRegion) (rest : List StringRegion) (w : WalkState),
      walkParts (⟨h, true⟩ :: p :: rest) w =
        walkParts rest ⟨(finishIfOpen w).builder, some ⟨h, p.value⟩⟩)
    ∧ (∀ (h : String) (w : WalkState),
      walkParts [⟨h, true⟩] w = ⟨(finishIfOpen w).builder, some ⟨h, ""⟩⟩) :=
  ⟨fun _ _ _ _ => rfl, fun _ _ => rfl⟩

/-- C5: the claim's repeated-field scenario end to end, and the general
`ObjectBuilder.store` behaviour on an already-present field: the
repeated-value warning reporting the previously stored value is appended
and the latest value overwrites the field.  (The hypothesis that the
previous value is truthy reflects the source's `if (this.object[field])`
guard; a value finalized before another finalize of the same field within
one record is never the empty string, since a continuation line prepends a
newline and a same-line consumed region is non-empty.) -/
theorem c5_theorem :
    parseString dictFoo "Foo: 1\nFoo: 2\n____\nFoo: 3" =
      .ok [[("foo", CVal.flat (FVal.str "2")),
            ("_meta", CVal.flat (FVal.meta [("ignored_text",
              ["Repeated value for " ++ apos ++ "Foo:" ++ apos ++ ", "
                ++ apos ++ " 1\n" ++ apos])]))],
           [("foo", CVal.flat (FVal.str "3"))]]
    ∧ (∀ (b : Builder) (f v : String) (old : RVal),
        objLookup b f = some old → truthyR old = true →
        bstore b f v =
          objSet (bwarn b "ignored_text"
            ("Repeated value for " ++ apos ++ f ++ apos ++ ", "
              ++ apos ++ rvalText old ++ apos)) f (.str v)) := by
  refine ⟨by decide, ?_⟩
  intro b f v old hold htr
  simp [bstore, hold, htr]

/-- C5 witness: the store step of the scenario's first record, at the
moment the separator finalizes `Foo: → " 2"` over the stored `" 1\n"`. -/
theorem c5_witness :
    bstore [("Foo:", RVal.str " 1\n")] "Foo:" " 2" =
      objSet (bwarn [("Foo:", RVal.str " 1\n")] "ignored_text"
        ("Repeated value for " ++ apos ++ "Foo:" ++ apos ++ ", "
          ++ apos ++ rvalText (RVal.str " 1\n") ++ apos)) "Foo:" (RVal.str " 2") :=
  c5_theorem.2 [("Foo:", RVal.str " 1\n")] "Foo:" " 2" (RVal.str " 1\n")
    (by decide) (by decide)

theorem identifyAux_char (d : Dict) :
    ∀ (hs : List String) (t0 : String),
      ((∀ v ∈ votesOf d hs, v = t0) → identifyAux d hs (some t0) = .ok (some t0))
      ∧ (∀ v ∈ votesOf d hs, v ≠ t0 → ∃ e, identifyAux d hs (some t0) = .error e)
      ∧ (∀ r, identifyAux d hs (some t0) = .ok r →
          r = some t0 ∧ ∀ v ∈ votesOf d hs, v = t0) := by
  intro hs
  induction hs with
  | nil =>
    intro t0
    refine ⟨fun _ => rfl, ?_, ?_⟩
    · intro v hv
      simp [votesOf] at hv
    · intro r hr
      simp [identifyAux] at hr
      simp [hr, votesOf]
  | cons h hs ih =>
    intro t0
    rcases hts : typesForHeader d h with _ | ⟨t, ts⟩
    · have hv : voteOf d h = none := by simp [voteOf, hts]
      have hred : identifyAux d (h :: hs) (some t0) = identifyAux d hs (some t0) := by
        simp [identifyAux, hts]
      have hvs : votesOf d (h :: hs) = votesOf d hs := by
        simp [votesOf, List.filterMap_cons, hv]
      rw [hred, hvs]
      exact ih t0
    · rcases ts with _ | ⟨t2, ts2⟩
      · have hv : voteOf d h = some t := by simp [voteOf, hts]
        have hvs : votesOf d (h :: hs) = t :: votesOf d hs := by
          simp [votesOf, List.filterMap_cons, hv]
        by_cases het : t0 = t
        · subst het
          have hred : identifyAux d (h :: hs) (some t0) = identifyAux d hs (some t0) := by
            simp [identifyAux, hts]
          rw [hred, hvs]
          refine ⟨?_, ?_, ?_⟩
          · intro hall
            exact (ih t0).1 (fun v hv2 => hall v (List.mem_cons_of_mem _ hv2))
          · intro v hv2 hne
            rcases List.mem_cons.mp hv2 with he | hm
            · exact absurd he hne
            · exact (ih t0).2.1 v hm hne
          · intro r hr
            obtain ⟨hr1, hr2⟩ := (ih t0).2.2 r hr
            exact ⟨hr1, fun v hv2 => by
              rcases List.mem_cons.mp hv2 with he | hm
              · exact he
              · exact hr2 v hm⟩
        · have hred : ∃ e, identifyAux d (h :: hs) (some t0) = .error e := by
            have : (t0 == t) = false := by simp [het]
            exact ⟨.ambiguous t0 t h, by simp [identifyAux, hts, this]⟩
          obtain ⟨e, he⟩ := hred
          refine ⟨?_, ?_, ?_⟩
          · intro hall
            exact absurd (hall t (by simp [hvs])) (fun hh => het hh.symm)
          · intro v hv2 hne
            exact ⟨e, he⟩
          · intro r hr
            rw [he] at hr
            exact absurd hr (by simp)
      · have hv : voteOf d h = none := by simp [voteOf, hts]
        have hred : identifyAux d (h :: hs) (some t0) = identifyAux d hs (some t0) := by
          simp [identifyAux, hts]
        have hvs : votesOf d (h :: hs) = votesOf d hs := by
          simp [votesOf, List.filterMap_cons, hv]
        rw [hred, hvs]
        exact ih t0

theorem identify_char (d : Dict) :
    ∀ hs : List String,
      (identifyObjectType d hs = .ok none ↔ votesOf d hs = [])
      ∧ (∀ t, identifyObjectType d hs = .ok (some t) ↔
          (votesOf d hs ≠ [] ∧ ∀ v ∈ votesOf d hs, v = t))
      ∧ ((∃ e, identifyObjectType d hs = .error e) ↔
          ∃ v ∈ votesOf d hs, ∃ w ∈ votesOf d hs, v ≠ w) := by
  intro hs
  induction hs with
  | nil =>
    refine ⟨by simp [identifyObjectType, identifyAux, votesOf], ?_, ?_⟩
    · intro t
      simp [identifyObjectType, identifyAux, votesOf]
    · simp [identifyObjectType, identifyAux, votesOf]
  | cons h hs ih =>
    rcases hts : typesForHeader d h with _ | ⟨t, ts⟩
    · have hv : voteOf d h = none := by simp [voteOf, hts]
      have hred : identifyObjectType d (h :: hs) = identifyObjectType d hs := by
        simp [identifyObjectType, identifyAux, hts]
      have hvs : votesOf d (h :: hs) = votesOf d hs := by
        simp [votesOf, List.filterMap_cons, hv]
      rw [hred, hvs]
      exact ih
    · rcases ts with _ | ⟨t2, ts2⟩
      · have hv : voteOf d h = some t := by simp [voteOf, hts]
        have hvs : votesOf d (h :: hs) = t :: votesOf d hs := by
          simp [votesOf, List.filterMap_cons, hv]
        have hred : identifyObjectType d (h :: hs) = identifyAux d hs (some t) := by
          simp [identifyObjectType, identifyAux, hts]
        rw [hred, hvs]
        obtain ⟨hA, hB, hC⟩ := identifyAux_char d hs t
        refine ⟨?_, ?_, ?_⟩
        · constructor
          · intro hok
            exact absurd ((hC none hok).1) (by simp)
          · intro hemp
            exact absurd hemp (by simp)
        · intro u
          constructor
          · intro hok
            obtain ⟨h1, h2⟩ := hC (some u) hok
            have : u = t := by
              injection h1
            subst this
            exact ⟨by simp, fun v hv2 => by
              rcases List.mem_cons.mp hv2 with he | hm
              · exact he
              · exact h2 v hm⟩
          · intro ⟨hne, hall⟩
            have htu : t = u := hall t (by simp)
            subst htu
            exact hA (fun v hv2 => hall v (List.mem_cons_of_mem _ hv2))
        · constructor
          · intro ⟨e, he⟩
            by_cases hall : ∀ v ∈ votesOf d hs, v = t
            · rw [hA hall] at he
              exact absurd he (by simp)
            · push_neg at hall
              obtain ⟨v, hvm, hvne⟩ := hall
              exact ⟨t, by simp, v, by simp [hvm], fun hh => hvne hh.symm⟩
          · intro ⟨v, hvm, w, hwm, hvw⟩
            by_cases hall : ∀ x ∈ votesOf d hs, x = t
            · have hvt : v = t := by
                rcases List.mem_cons.mp hvm with he | hm
                · exact he
                · exact hall v hm
              have hwt : w = t := by
                rcases List.mem_cons.mp hwm with he | hm
                · exact he
                · exact hall w hm
              exact absurd (hvt.trans hwt.symm) hvw
            · push_neg at hall
              obtain ⟨x, hxm, hxne⟩ := hall
              exact hB x hxm hxne
      · have hv : voteOf d h = none := by simp [voteOf, hts]
        have hred : identifyObjectType d (h :: hs) = identifyObjectType d hs := by
          simp [identifyObjectType, identifyAux, hts]
        have hvs : votesOf d (h :: hs) = votesOf d hs := by
          simp [votesOf, List.filterMap_cons, hv]
        rw [hred, hvs]
        exact ih

/-- C6: classification counts one vote per header declared by exactly one
type (`votesOf`: headers declared by zero or several types cast no vote);
the finalized capture resolves to a type exactly when some vote exists and
all votes agree; two disagreeing votes make classification throw the
ambiguity error; and with no vote at all `cookObject` fails with the
uncategorizable-record error. -/
theorem c6_theorem (d : Dict) (raw : Builder) (objs : List CRec) :
    (identifyObjectType d (raw.map (fun p => p.1)) = .ok none ↔
      votesOf d (raw.map (fun p => p.1)) = [])
    ∧ (∀ t, identifyObjectType d (raw.map (fun p => p.1)) = .ok (some t) ↔
        (votesOf d (raw.map (fun p => p.1)) ≠ []
          ∧ ∀ v ∈ votesOf d (raw.map (fun p => p.1)), v = t))
    ∧ ((∃ e, identifyObjectType d (raw.map (fun p => p.1)) = .error e) ↔
        ∃ v ∈ votesOf d (raw.map (fun p => p.1)),
          ∃ w ∈ votesOf d (raw.map (fun p => p.1)), v ≠ w)
    ∧ (votesOf d (raw.map (fun p => p.1)) = [] →
        cookObject d raw objs = .error (.uncategorizable (raw.map (fun p => p.1)))) := by
  obtain ⟨h1, h2, h3⟩ := identify_char d (raw.map (fun p => p.1))
  refine ⟨h1, h2, h3, ?_⟩
  intro hvs
  have hid := h1.mpr hvs
  simp [cookObject, hid, bind, Except.bind]

/-- C6 witness: under `dictFoo`, the capture with headers `Foo:` and
`_meta` resolves to `Order` (one vote), and a capture with no recognized
header is uncategorizable. -/
theorem c6_witness :
    identifyObjectType dictFoo ["Foo:", "_meta"] = .ok (some "Order")
    ∧ cookObject dictFoo [("X", RVal.str "1")] [] =
        .error (.uncategorizable ["X"]) :=
  ⟨((c6_theorem dictFoo [("Foo:", RVal.str "1"), ("_meta", RVal.meta [])] []).2.1
      "Order").mpr ⟨by decide, by decide⟩,
   (c6_theorem dictFoo [("X", RVal.str "1")] []).2.2.2 (by decide)⟩

theorem objSet_absent (o : List (String × α)) (k : String) (v : α)
    (h : objLookup o k = none) : objSet o k v = o ++ [(k, v)] := by
  have hf : o.find? (fun p => p.1 == k) = none := by
    rcases hx : o.find? (fun p => p.1 == k) with _ | p
    · exact hx
    · rw [objLookup, hx] at h
      simp at h
  simp [objSet, hf]

/-- C7: a cooked record whose resolved type declares a `belongs_to` rule is
appended to the `as`-named child array (created when the slot is absent) of
the **first** previously produced top-level record whose `match_on` field
strictly equals the record's; with no such record the output is unchanged —
the record is dropped (the warning goes to the console only) and the parse
succeeds. -/
theorem c7_theorem (d : Dict) (raw : Builder) (objs : List CRec) (t : String)
    (ow : Owner) (result : FRec)
    (hid : identifyObjectType d (raw.map (fun p => p.1)) = .ok (some t))
    (how : ownerOf d t = some ow)
    (hpr : processAll d t raw = .ok result) :
    (objs.findIdx? (fun o =>
        jsEqCF (objLookup o ow.match_on) (objLookup result ow.match_on)) = none →
      cookObject d raw objs = .ok objs)
    ∧ (∀ i o, objs.findIdx? (fun o =>
          jsEqCF (objLookup o ow.match_on) (objLookup result ow.match_on)) = some i →
        objs[i]? = some o →
        objLookup o ow.as = none →
        cookObject d raw objs = .ok (objs.set i (o ++ [(ow.as, CVal.children [result])])))
    ∧ (∀ i o l, objs.findIdx? (fun o =>
          jsEqCF (objLookup o ow.match_on) (objLookup result ow.match_on)) = some i →
        objs[i]? = some o →
        objLookup o ow.as = some (.children l) →
        cookObject d raw objs =
          .ok (objs.set i (objSet o ow.as (.children (l ++ [result]))))) := by
  refine ⟨?_, ?_, ?_⟩
  · intro hfind
    simp [cookObject, hid, hpr, how, hfind, bind, Except.bind]
  · intro i o hfind hget hslot
    simp [cookObject, hid, hpr, how, hfind, hget, bind, Except.bind,
      appendChild, hslot, objSet_absent o ow.as _ hslot]
  · intro i o l hfind hget hslot
    simp [cookObject, hid, hpr, how, hfind, hget, bind, Except.bind,
      appendChild, hslot]

/-- C7 witness: under `dictOwn`, a suborder capture matching the produced
order is nested under `suborders`, and one matching nothing leaves the
output unchanged. -/
theorem c7_witness :
    cookObject dictOwn [("foo:", RVal.str " 1"), ("bar:", RVal.str " hi")]
      [[("foo", CVal.flat (FVal.str "1"))]] =
      .ok [[("foo", CVal.flat (FVal.str "1")),
            ("suborders", CVal.children [[("foo", FVal.str "1"), ("bar", FVal.str "hi")]])]]
    ∧ cookObject dictOwn [("foo:", RVal.str " 2"), ("bar:", RVal.str " hi")]
        [[("foo", CVal.flat (FVal.str "1"))]] =
      .ok [[("foo", CVal.flat (FVal.str "1"))]] := by
  constructor
  · have h2 := (c7_theorem dictOwn [("foo:", RVal.str " 1"), ("bar:", RVal.str " hi")]
      [[("foo", CVal.flat (FVal.str "1"))]] "Suborder" ⟨"foo", "suborders"⟩
      [("foo", FVal.str "1"), ("bar", FVal.str "hi")]
      (by decide) (by decide) (by decide)).2.1 0 [("foo", CVal.flat (FVal.str "1"))]
      (by decide) (by decide) (by decide)
    exact h2.trans (by decide)
  · have h1 := (c7_theorem dictOwn [("foo:", RVal.str " 2"), ("bar:", RVal.str " hi")]
      [[("foo", CVal.flat (FVal.str "1"))]] "Suborder" ⟨"foo", "suborders"⟩
      [("foo", FVal.str "2"), ("bar", FVal.str "hi")]
      (by decide) (by decide) (by decide)).1 (by decide)
    exact h1


theorem compileBody_plain : ∀ cs : List Char, (∀ c ∈ cs, c ≠ '+') →
    compileBody cs = cs.map RxAtom.ch := by
  intro cs
  induction cs using compileBody.induct with
  | case1 => intro _; rfl
  | case2 c rest ih =>
    intro hp
    exact absurd rfl (hp '+' (by simp))
  | case3 c rest hne ih =>
    intro hp
    have : compileBody (c :: rest) = .ch c :: compileBody rest := by
      rcases rest with _ | ⟨c2, rest2⟩
      · rfl
      · have hc2 : c2 ≠ '+' := hp c2 (by simp)
        simp [compileBody, hc2]
    rw [this, ih (fun x hx => hp x (by simp [hx]))]
    rfl

theorem compileRx_plain (p : String) (hp : plainPattern p = true) :
    compileRx p = ⟨false, false, p.data.map RxAtom.ch⟩ := by
  have hall : ∀ c ∈ p.data, c ≠ '^' ∧ c ≠ '$' ∧ c ≠ '+' := by
    have hp2 : p.data.all (fun c =>
        !(c == '^' || c == '$' || c == '+' || c == '.' || c == '*' || c == '?'
          || c == '(' || c == ')' || c == '[' || c == ']'
          || c == Char.ofNat 123 || c == Char.ofNat 125
          || c == '|' || c == '\\')) = true := by
      rw [plainPattern, Bool.and_eq_true] at hp
      exact hp.2
    intro c hc
    have h := (List.all_eq_true.mp hp2) c hc
    simp only [Bool.not_eq_true', Bool.or_eq_false_iff, beq_eq_false_iff_ne] at h
    exact ⟨by tauto, by tauto, by tauto⟩
  have h1 : rxStart p.data = (false, p.data) := by
    rcases hd : p.data with _ | ⟨c, rest⟩
    · rfl
    · have hc : c ≠ '^' := ((hall c (by simp [hd])).1)
      rw [rxStart.eq_def]
      split
      · rename_i heq
        injection heq with heq1 _
        exact absurd heq1 hc
      · rfl
  have h2 : p.data.getLast? ≠ some '$' := by
    intro hl
    have hm : '$' ∈ p.data := by
      obtain ⟨hne, hx⟩ := List.mem_getLast?_eq_getLast (Option.mem_def.mpr hl)
      rw [hx]
      exact List.getLast_mem hne
    exact absurd rfl ((hall '$' hm).2.1)
  have h3 : rxEnd p.data = (false, p.data) := by
    rw [rxEnd]
    rcases hg : p.data.getLast? with _ | c
    · rfl
    · have hc : c ≠ '$' := by
        intro he
        exact h2 (he ▸ hg)
      simp [hc]
  rw [compileRx, h1]
  simp only [h3]
  rw [compileBody_plain p.data (fun c hc => (hall c hc).2.2)]

theorem matchAtoms_lits : ∀ (cs l : List Char),
    (matchAtoms (cs.map RxAtom.ch) l false = true ↔ l.take cs.length = cs) := by
  intro cs
  induction cs with
  | nil =>
    intro l
    simp [matchAtoms]
  | cons c cs ih =>
    intro l
    rcases l with _ | ⟨x, l⟩
    · simp [matchAtoms]
    · simp [matchAtoms, ih l, List.take_cons]
      exact fun _ => eq_comm

theorem isSubstrAt_iff (s : String) (j : Nat) (t : String) (hj : j ≤ s.length) :
    isSubstrAt s j t = true ↔ (s.data.drop j).take t.data.length = t.data := by
  simp only [isSubstrAt, Bool.and_eq_true, decide_eq_true_eq, beq_iff_eq]
  constructor
  · intro h
    exact h.2
  · intro h
    refine ⟨?_, h⟩
    have hlen := congrArg List.length h
    simp only [List.length_take, List.length_drop] at hlen
    have hs : s.length = s.data.length := rfl
    have ht : t.length = t.data.length := rfl
    omega

theorem execRx_plain (p : String) (hp : plainPattern p = true) (line : String) :
    (execRx (compileRx p) line = true ↔ isSubstrOf p line = true) := by
  rw [compileRx_plain p hp]
  show ((List.range (line.length + 1)).any
      (fun j => matchAtoms (p.data.map RxAtom.ch) (line.data.drop j) false) = true)
    ↔ isSubstrOf p line = true
  simp only [isSubstrOf, List.any_eq_true]
  constructor
  · rintro ⟨j, hj, hm⟩
    have hjle : j ≤ line.length := by
      have := List.mem_range.mp hj
      omega
    exact ⟨j, hj, (isSubstrAt_iff line j p hjle).mpr
      ((matchAtoms_lits p.data (line.data.drop j)).mp hm)⟩
  · rintro ⟨j, hj, hm⟩
    have hjle : j ≤ line.length := by
      have := List.mem_range.mp hj
      omega
    exact ⟨j, hj, (matchAtoms_lits p.data (line.data.drop j)).mpr
      ((isSubstrAt_iff line j p hjle).mp hm)⟩

theorem matchAtoms_plusUnderscore : ∀ cs : List Char,
    (matchAtoms [RxAtom.plus '_'] cs true = true ↔ (cs ≠ [] ∧ ∀ c ∈ cs, c = '_')) := by
  intro cs
  induction cs with
  | nil => simp [matchAtoms]
  | cons c rest ih =>
    have hred : matchAtoms [RxAtom.plus '_'] (c :: rest) true
        = (('_' == c) && (rest.isEmpty || matchAtoms [RxAtom.plus '_'] rest true)) := by
      simp [matchAtoms]
    rw [hred]
    rcases rest with _ | ⟨c2, rest2⟩
    · constructor
      · intro h
        simp only [List.isEmpty_nil, Bool.true_or, Bool.and_true, beq_iff_eq] at h
        exact ⟨by simp, by simp [h.symm]⟩
      · intro hx
        simp [hx.2 c (by simp)]
    · rw [show (c2 :: rest2).isEmpty = false from rfl]
      rw [Bool.false_or, Bool.and_eq_true, beq_iff_eq]
      constructor
      · intro hx
        have h3 := ih.mp hx.2
        refine ⟨by simp, ?_⟩
        intro x hmem
        rcases List.mem_cons.mp hmem with he | hm
        · rw [he]
          exact hx.1.symm
        · exact h3.2 x hm
      · intro hx
        refine ⟨(hx.2 c (by simp)).symm, ih.mpr ⟨by simp, ?_⟩⟩
        intro x hmem
        exact hx.2 x (List.mem_cons_of_mem _ hmem)

theorem str_eq_empty_iff (s : String) : s = "" ↔ s.data = [] := by
  constructor
  · intro h
    rw [h]
  · intro h
    cases s
    cases h
    rfl

theorem defaultSep_char (s : String) :
    execRx DEFAULT_RECORD_SEPARATOR s = true ↔ (s ≠ "" ∧ ∀ c ∈ s.data, c = '_') := by
  have hD : execRx DEFAULT_RECORD_SEPARATOR s = matchAtoms [RxAtom.plus '_'] s.data true := rfl
  rw [hD, matchAtoms_plusUnderscore s.data]
  constructor
  · intro hx
    refine ⟨?_, hx.2⟩
    intro he
    exact hx.1 ((str_eq_empty_iff s).mp he)
  · intro hx
    refine ⟨?_, hx.2⟩
    intro he
    exact hx.1 ((str_eq_empty_iff s).mpr he)

/-- C9: a custom `options.record_separator` pattern is compiled by
`new RegExp(sep)` with no anchoring added, so (for a plain literal pattern)
a line is treated as a record separator exactly when it merely **contains**
the pattern as a substring; only the default separator `/^_+$/` requires the
entire line to consist of underscores. -/
theorem c9_theorem (d : Dict) (p line : String)
    (hsep : d.record_separator = some p) (hplain : plainPattern p = true) :
    (execRx (recordSeparator d) line = true ↔ isSubstrOf p line = true)
    ∧ (∀ s : String, execRx DEFAULT_RECORD_SEPARATOR s = true ↔
        (s ≠ "" ∧ ∀ c ∈ s.data, c = '_')) := by
  constructor
  · rw [recordSeparator, hsep]
    have hne : (p == "") = false := by
      rw [plainPattern, Bool.and_eq_true] at hplain
      simpa using hplain.1
    simp only [hne, Bool.false_eq_true, if_false]
    exact execRx_plain p hplain line
  · exact defaultSep_char

/-- C9 witness: under `dictDash` (custom pattern `---`) the line `xx---yy`,
which merely contains the pattern without being equal to it, is a record
separator; the default separator rejects the analogous `xx___yy`. -/
theorem c9_witness :
    execRx (recordSeparator dictDash) "xx---yy" = true
    ∧ execRx DEFAULT_RECORD_SEPARATOR "xx___yy" = false :=
  ⟨((c9_theorem dictDash "---" "xx---yy" (by decide) (by decide)).1).mpr (by decide),
   by decide⟩

theorem execStep_some (terms : List String) (s : String) (i j : Nat) (m : String)
    (h : execStep terms s i = some (j, m)) :
    i ≤ j ∧ j + m.length ≤ s.length ∧ (m ∈ terms ∨ (terms.isEmpty ∧ m = "")) := by
  obtain ⟨a, ha, hfa⟩ := List.exists_of_findSome?_eq_some h
  rcases hmt : matchTermAt terms s a with _ | m2
  · rw [hmt] at hfa
    simp at hfa
  · rw [hmt] at hfa
    simp only [Option.map_some', Option.some.injEq, Prod.mk.injEq] at hfa
    obtain ⟨haj, hm2⟩ := hfa
    subst haj
    subst hm2
    have hmem := List.mem_range'_1.mp ha
    rw [matchTermAt] at hmt
    by_cases hemp : terms.isEmpty
    · rw [if_pos hemp] at hmt
      injection hmt with hmt
      subst hmt
      refine ⟨hmem.1, ?_, Or.inr ⟨hemp, rfl⟩⟩
      have h2 := hmem.2
      have h0 : ("" : String).length = 0 := rfl
      omega
    · rw [if_neg hemp] at hmt
      have hmem2 := List.mem_of_find?_eq_some hmt
      have hsub := List.find?_some hmt
      simp only [isSubstrAt, Bool.and_eq_true, decide_eq_true_eq] at hsub
      exact ⟨hmem.1, hsub.1, Or.inl hmem2⟩

theorem execStep_isSome_degenerate (terms : List String) (s : String) (i : Nat)
    (hi : i ≤ s.length) (hdeg : terms.isEmpty ∨ "" ∈ terms) :
    (execStep terms s i).isSome := by
  rw [execStep]
  rw [List.findSome?_isSome_iff]
  refine ⟨i, List.mem_range'_1.mpr ⟨Nat.le_refl i, by omega⟩, ?_⟩
  have hsome : (matchTermAt terms s i).isSome := by
    rw [matchTermAt]
    by_cases hemp : terms.isEmpty
    · simp [hemp]
    · rw [if_neg hemp]
      rcases hdeg with hd | hd
      · exact absurd hd hemp
      · rw [List.find?_isSome]
        refine ⟨"", hd, ?_⟩
        simp only [isSubstrAt, Bool.and_eq_true, decide_eq_true_eq, beq_iff_eq]
        refine ⟨?_, by simp⟩
        have : ("" : String).length = 0 := rfl
        omega
  rcases hmt : matchTermAt terms s i with _ | m2
  · rw [hmt] at hsome
    simp at hsome
  · simp

theorem allMatchesF_none_degenerate (terms : List String) (s : String)
    (hdeg : terms.isEmpty ∨ "" ∈ terms) :
    ∀ fuel i, i ≤ s.length → allMatchesF terms s fuel i = none := by
  intro fuel
  induction fuel with
  | zero =>
    intro i _
    rfl
  | succ n ih =>
    intro i hi
    have hs := execStep_isSome_degenerate terms s i hi hdeg
    rcases hx : execStep terms s i with _ | ⟨j, m⟩
    · rw [hx] at hs
      simp at hs
    · obtain ⟨h1, h2, _⟩ := execStep_some terms s i j m hx
      simp [allMatchesF, hx, ih (j + m.length) (by omega)]

theorem allMatchesF_isSome_nonempty (terms : List String) (s : String)
    (hne : ¬terms.isEmpty) (hns : ∀ t ∈ terms, t ≠ "") :
    ∀ fuel i, s.length + 1 - i < fuel → (allMatchesF terms s fuel i).isSome := by
  intro fuel
  induction fuel with
  | zero =>
    intro i hi
    omega
  | succ n ih =>
    intro i hi
    rcases hx : execStep terms s i with _ | ⟨j, m⟩
    · simp [allMatchesF, hx]
    · obtain ⟨h1, h2, h3⟩ := execStep_some terms s i j m hx
      have hmem : m ∈ terms := by
        rcases h3 with h3 | h3
        · exact h3
        · exact absurd h3.1 hne
      have hml : 0 < m.length := by
        have hne2 := hns m hmem
        have : m.data ≠ [] := fun hc => hne2 ((str_eq_empty_iff m).mpr hc)
        have h4 : 0 < m.data.length := List.length_pos.mpr this
        exact h4
      have hrec := ih (j + m.length) (by omega)
      have hstep : allMatchesF terms s (n + 1) i
          = (allMatchesF terms s n (j + m.length)).map (fun r => (j, m) :: r) := by
        simp only [allMatchesF, hx]
      rw [hstep, Option.isSome_map']
      exact hrec

/-- C10: the `allMatches` loop, and hence `splitByMatches` and the per-line
scan, terminates on every line whenever the dictionary declares at least
one header and every declared header is non-empty (the fixed fuel
`length + 2` always suffices); when the dictionary declares no header at
all, or declares the empty string as a header, the compiled alternation
matches the empty string without advancing `lastIndex`, and the loop
terminates under no amount of fuel. -/
theorem c10_theorem (d : Dict) (s : String) :
    ((buildDictionaryRegex d ≠ [] ∧ ∀ t ∈ buildDictionaryRegex d, t ≠ "") →
      (allMatchesRun (buildDictionaryRegex d) s).isSome = true)
    ∧ ((buildDictionaryRegex d = [] ∨ "" ∈ buildDictionaryRegex d) →
      ∀ fuel, allMatchesF (buildDictionaryRegex d) s fuel 0 = none) := by
  constructor
  · intro ⟨h1, h2⟩
    have hne : ¬(buildDictionaryRegex d).isEmpty := by
      simpa [List.isEmpty_iff] using h1
    exact allMatchesF_isSome_nonempty (buildDictionaryRegex d) s hne h2
      (s.length + 2) 0 (by omega)
  · intro hdeg fuel
    have hd2 : (buildDictionaryRegex d).isEmpty ∨ "" ∈ buildDictionaryRegex d := by
      rcases hdeg with hd | hd
      · exact Or.inl (by simp [hd])
      · exact Or.inr hd
    exact allMatchesF_none_degenerate (buildDictionaryRegex d) s hd2 fuel 0
      (by omega)

/-- C10 witness: under `dictFoo` (one non-empty header) the matcher
terminates on a sample line; under the header-free `dictEmpty` it returns
no result at the sample fuel. -/
theorem c10_witness :
    (allMatchesRun (buildDictionaryRegex dictFoo) "Foo: 1").isSome = true
    ∧ allMatchesF (buildDictionaryRegex dictEmpty) "abc" 5 0 = none :=
  ⟨(c10_theorem dictFoo "Foo: 1").1 ⟨by decide, by decide⟩,
   (c10_theorem dictEmpty "abc").2 (Or.inl (by decide)) 5⟩

theorem ownerOf_none_of_noOwners (d : Dict) (hno : noOwners d = true) (t : String) :
    ownerOf d t = none := by
  rw [ownerOf]
  rcases hlk : lookupType d t with _ | td
  · rfl
  · rw [lookupType, objLookup] at hlk
    rcases hf : d.types.find? (fun p => p.1 == t) with _ | p
    · rw [hf] at hlk
      simp at hlk
    · rw [hf] at hlk
      simp only [Option.map_some', Option.some.injEq] at hlk
      have hmem := List.mem_of_find?_eq_some hf
      have hall := (List.all_eq_true.mp hno) p hmem
      rw [← hlk]
      exact Option.isNone_iff_eq_none.mp hall

theorem cook_prepend (d : Dict) (raw : Builder) (o objs : List CRec)
    (hno : noOwners d = true) :
    cookObject d raw (o ++ objs) = (cookObject d raw objs).map (fun r => o ++ r) := by
  rw [cookObject, cookObject]
  simp only [bind, Except.bind]
  rcases hid : identifyObjectType d (raw.map (fun p => p.1)) with e | t?
  · simp [hid, Except.map]
  · rcases t? with _ | t
    · simp [hid, Except.map]
    · rcases hpr : processAll d t raw with e | result
      · simp [hid, hpr, Except.map]
      · simp only [hid, hpr]
        rw [ownerOf_none_of_noOwners d hno t]
        simp [Except.map, List.append_assoc]

theorem finishEOF_prepend (d : Dict) (o : List CRec) (st : ScanState)
    (hno : noOwners d = true) :
    finishEOF d ⟨o ++ st.objects, st.ws⟩ =
      (finishEOF d st).map (fun r => o ++ r) := by
  rw [finishEOF, finishEOF]
  by_cases hemp : bIsEmpty (finishIfOpen st.ws).builder
  · simp [hemp, Except.map]
  · simp only [hemp, Bool.false_eq_true, if_false]
    exact cook_prepend d (finishIfOpen st.ws).builder o st.objects hno

theorem stepLine_prepend (d : Dict) (o : List CRec) (st : ScanState) (line : String)
    (hno : noOwners d = true) :
    stepLine d ⟨o ++ st.objects, st.ws⟩ line =
      (stepLine d st line).map (fun st2 => ⟨o ++ st2.objects, st2.ws⟩) := by
  rw [stepLine, stepLine]
  by_cases hsep : execRx (recordSeparator d) line
  · simp only [hsep, if_true]
    by_cases hemp : bIsEmpty (finishIfOpen st.ws).builder
    · simp [hemp, Except.map]
    · simp only [hemp, Bool.false_eq_true, if_false]
      rw [cook_prepend d (finishIfOpen st.ws).builder o st.objects hno]
      rcases cookObject d (finishIfOpen st.ws).builder st.objects with e | objs2
      · simp [Except.map, bind, Except.bind]
      · simp [Except.map, bind, Except.bind]
  · simp only [hsep, Bool.false_eq_true, if_false]
    rcases splitByMatches (buildDictionaryRegex d) line with _ | parts
    · simp [Except.map]
    · simp [Except.map]

theorem runLines_prepend (d : Dict) (o : List CRec)
    (hno : noOwners d = true) :
    ∀ (lines : List String) (st : ScanState),
      runLines d ⟨o ++ st.objects, st.ws⟩ lines =
        (runLines d st lines).map (fun st2 => ⟨o ++ st2.objects, st2.ws⟩) := by
  intro lines
  induction lines with
  | nil =>
    intro st
    simp [runLines, Except.map, pure, Except.pure]
  | cons l rest ih =>
    intro st
    rw [runLines, List.foldlM_cons, runLines, List.foldlM_cons]
    rw [stepLine_prepend d o st l hno]
    rcases hx : stepLine d st l with e | st2
    · simp [bind, Except.bind, Except.map]
    · simp only [bind, Except.bind, Except.map]
      have := ih st2
      rw [runLines, runLines] at this
      exact this

theorem stepLine_sep (d : Dict) (st : ScanState) (line : String)
    (hsep : execRx (recordSeparator d) line = true) :
    stepLine d st line =
      (finishEOF d st).map (fun objs => (⟨objs, ⟨[], none⟩⟩ : ScanState)) := by
  rw [stepLine, finishEOF, if_pos hsep]
  by_cases hemp : bIsEmpty (finishIfOpen st.ws).builder
  · simp [hemp, Except.map]
  · simp only [hemp, Bool.false_eq_true, if_false]
    rcases cookObject d (finishIfOpen st.ws).builder st.objects with e | objs
    · simp [Except.map, bind, Except.bind]
    · simp [Except.map, bind, Except.bind]


theorem consHead_ne_nil (c : Char) (x : List (List Char)) : consHead c x ≠ [] := by
  rcases x with _ | ⟨l, ls⟩ <;> simp [consHead]

theorem consHead_append (c : Char) (u v : List (List Char)) (hu : u ≠ []) :
    consHead c (u ++ v) = consHead c u ++ v := by
  rcases u with _ | ⟨l, ls⟩
  · exact absurd rfl hu
  · rfl

theorem getLast?_drop_head (c : Char) (x2 : List Char)
    (h : (c :: x2).getLast? ≠ some '\r') : x2.getLast? ≠ some '\r' := by
  rcases x2 with _ | ⟨a, b⟩
  · simp
  · rw [List.getLast?_cons_cons] at h
    exact h

theorem rlSplitCh_ne_nil : ∀ l : List Char, rlSplitCh l ≠ [] := by
  intro l
  induction l using rlSplitCh.induct with
  | case1 => simp [rlSplitCh]
  | case2 rest ih => simp [rlSplitCh]
  | case3 rest ih => simp [rlSplitCh]
  | case4 rest h1 ih => simp [rlSplitCh.eq_4 rest h1]
  | case5 c rest h1 h2 h3 ih =>
    rw [rlSplitCh.eq_5 c rest h1 h2 h3]
    exact consHead_ne_nil _ _

theorem rlSplitCh_cons_default (c : Char) (rest : List Char) (hc1 : c ≠ '\n')
    (hc2 : c ≠ '\r') :
    rlSplitCh (c :: rest) = consHead c (rlSplitCh rest) :=
  rlSplitCh.eq_5 c rest (fun _ hcr _ => hc2 hcr) hc1 hc2

theorem rlSplitCh_append : ∀ (n : Nat) (x y : List Char), x.length ≤ n →
    x.getLast? ≠ some '\r' →
    rlSplitCh (x ++ '\n' :: y) = rlSplitCh x ++ rlSplitCh y := by
  intro n
  induction n with
  | zero =>
    intro x y hlen hlast
    have hx : x = [] := List.length_eq_zero.mp (Nat.le_zero.mp hlen)
    subst hx
    rw [List.nil_append, rlSplitCh.eq_3, rlSplitCh.eq_1]
    rfl
  | succ n ih =>
    intro x y hlen hlast
    rcases x with _ | ⟨c, x2⟩
    · rw [List.nil_append, rlSplitCh.eq_3, rlSplitCh.eq_1]
      rfl
    · by_cases hc : c = '\n'
      · subst hc
        rw [List.cons_append, rlSplitCh.eq_3, rlSplitCh.eq_3]
        rw [ih x2 y (by simp at hlen ⊢; omega) (getLast?_drop_head _ _ hlast)]
        rfl
      · by_cases hr : c = '\r'
        · subst hr
          rcases x2 with _ | ⟨c2, x3⟩
          · exact absurd rfl hlast
          · by_cases hc2 : c2 = '\n'
            · subst hc2
              rw [List.cons_append, List.cons_append, rlSplitCh.eq_2, rlSplitCh.eq_2]
              rw [ih x3 y (by simp at hlen ⊢; omega)
                (getLast?_drop_head _ _ (getLast?_drop_head _ _ hlast))]
              rfl
            · have h1 : ∀ rest2 : List Char,
                  (c2 :: x3) ++ '\n' :: y = '\n' :: rest2 → False := by
                intro rest2 hcon
                rw [List.cons_append] at hcon
                exact hc2 (by injection hcon)
              have h2 : ∀ rest2 : List Char, c2 :: x3 = '\n' :: rest2 → False := by
                intro rest2 hcon
                exact hc2 (by injection hcon)
              rw [List.cons_append, rlSplitCh.eq_4 ((c2 :: x3) ++ '\n' :: y) h1,
                rlSplitCh.eq_4 (c2 :: x3) h2]
              rw [ih (c2 :: x3) y (by simp at hlen ⊢; omega)
                (getLast?_drop_head _ _ hlast)]
              rfl
        · rw [List.cons_append, rlSplitCh_cons_default c (x2 ++ '\n' :: y) hc hr,
            rlSplitCh_cons_default c x2 hc hr]
          rw [ih x2 y (by simp at hlen ⊢; omega) (getLast?_drop_head _ _ hlast)]
          exact consHead_append c _ _ (rlSplitCh_ne_nil _)

theorem rlSplitLines_concat (x y : String) (h : x.data.getLast? ≠ some '\r') :
    rlSplitLines (x ++ "\n" ++ y) = rlSplitLines x ++ rlSplitLines y := by
  rw [rlSplitLines, rlSplitLines, rlSplitLines]
  have hd : (x ++ "\n" ++ y).data = x.data ++ '\n' :: y.data := by
    rw [String.data_append, String.data_append, List.append_assoc]
    rfl
  rw [hd, rlSplitCh_append x.data.length x.data y.data (Nat.le_refl _) h]
  rw [List.map_append]

theorem rlSplitLines_ne_nil (x : String) : rlSplitLines x ≠ [] := by
  rw [rlSplitLines]
  intro hcon
  exact rlSplitCh_ne_nil x.data (List.map_eq_nil_iff.mp hcon)

theorem rlSplitCh_no_break : ∀ cs : List Char,
    (∀ c ∈ cs, c ≠ '\n' ∧ c ≠ '\r') → rlSplitCh cs = [cs] := by
  intro cs
  induction cs with
  | nil =>
    intro _
    rfl
  | cons c rest ih =>
    intro hall
    have hc := hall c (by simp)
    rw [rlSplitCh_cons_default c rest hc.1 hc.2,
      ih (fun x hx => hall x (List.mem_cons_of_mem _ hx))]
    rfl

theorem sepLine_no_break (S : String)
    (hS : S.data.all (fun c => !(c == '\n' || c == '\r')) = true) :
    ∀ c ∈ S.data, c ≠ '\n' ∧ c ≠ '\r' := by
  intro c hc
  have h := (List.all_eq_true.mp hS) c hc
  simp only [Bool.not_eq_true', Bool.or_eq_false_iff, beq_eq_false_iff_ne] at h
  exact h

theorem rlSplitLines_single (S : String)
    (hS : S.data.all (fun c => !(c == '\n' || c == '\r')) = true) :
    rlSplitLines S = [S] := by
  rw [rlSplitLines, rlSplitCh_no_break S.data (sepLine_no_break S hS)]
  rfl

theorem readLines_concat (A S B : String)
    (hA1 : (rlSplitLines A).getLast? ≠ some "")
    (hA2 : A.data.getLast? ≠ some '\r')
    (hS : S.data.all (fun c => !(c == '\n' || c == '\r')) = true) :
    readLines (A ++ "\n" ++ S ++ "\n" ++ B) = readLines A ++ S :: readLines B := by
  have hsplit : rlSplitLines (A ++ "\n" ++ S ++ "\n" ++ B)
      = rlSplitLines A ++ S :: rlSplitLines B := by
    have hassoc : A ++ "\n" ++ S ++ "\n" ++ B = (A ++ "\n" ++ S) ++ "\n" ++ B := by
      simp [String.append_assoc]
    rw [hassoc]
    rw [rlSplitLines_concat (A ++ "\n" ++ S) B (by
      rw [String.data_append, String.data_append]
      rcases em (S.data = []) with he | hne
      · rw [he]
        simp
      · rw [List.append_assoc, List.getLast?_append, List.getLast?_append]
        rcases hgl : S.data.getLast? with _ | c
        · exact absurd (List.getLast?_eq_none_iff.mp hgl) hne
        · simp only [Option.or_some]
          intro hcon
          have hcm : c ∈ S.data := by
            obtain ⟨hne2, hx⟩ := List.mem_getLast?_eq_getLast (Option.mem_def.mpr hgl)
            rw [hx]
            exact List.getLast_mem hne2
          exact ((sepLine_no_break S hS) c hcm).2 (by injection hcon))]
    rw [rlSplitLines_concat A S hA2]
    rw [rlSplitLines_single S hS]
    simp
  rw [readLines, readLines, readLines, hsplit]
  have hBne := rlSplitLines_ne_nil B
  have hgl : (rlSplitLines A ++ S :: rlSplitLines B).getLast? = (rlSplitLines B).getLast? := by
    rw [List.getLast?_append]
    have h1 : (S :: rlSplitLines B).getLast? = (rlSplitLines B).getLast? := by
      rcases hbl : rlSplitLines B with _ | ⟨b1, bs⟩
      · exact absurd hbl hBne
      · rw [List.getLast?_cons_cons]
    rw [h1]
    rcases hb : (rlSplitLines B).getLast? with _ | c
    · exact absurd (List.getLast?_eq_none_iff.mp hb) hBne
    · rfl
  rw [hgl]
  have hA1b : ((rlSplitLines A).getLast? == some "") = false := by
    rcases ha : (rlSplitLines A).getLast? with _ | a
    · rfl
    · have hne2 : a ≠ "" := fun hcon => hA1 (hcon ▸ ha)
      simp [hne2]
  rw [hA1b]
  simp only [Bool.false_eq_true, if_false]
  rcases hb2 : ((rlSplitLines B).getLast? == some "") with _ | _
  · simp only [Bool.false_eq_true, if_false]
  · simp only [if_true]
    rw [List.dropLast_append_cons]
    have hdl : (S :: rlSplitLines B).dropLast = S :: (rlSplitLines B).dropLast := by
      rcases hbl : rlSplitLines B with _ | ⟨b1, bs⟩
      · exact absurd hbl hBne
      · rw [List.dropLast_cons_of_ne_nil (by simp)]
    rw [hdl]

theorem noOwners_noCross (d : Dict) (hno : noOwners d = true)
    (ra : List CRec) (lb : List String) : noCrossOwnership d ra lb := by
  rw [noCrossOwnership, parseLines]
  have h1 := runLines_prepend d ra hno lb emptyScan
  have he : (⟨ra ++ emptyScan.objects, emptyScan.ws⟩ : ScanState)
      = ⟨ra, ⟨[], none⟩⟩ := by
    simp [emptyScan]
  rw [he] at h1
  rw [h1]
  rcases hx : runLines d emptyScan lb with e | stb
  · rfl
  · have h2 : ((Except.ok stb).map
          (fun st2 => (⟨ra ++ st2.objects, st2.ws⟩ : ScanState))).bind (finishEOF d)
        = finishEOF d ⟨ra ++ stb.objects, stb.ws⟩ := rfl
    rw [h2, finishEOF_prepend d ra stb hno]
    rfl

set_option maxHeartbeats 1600000 in
/-- C8 counterexample: the claim fails for a newline-terminated valid
single-record input `A`.  `A` parses alone to a record with `loc = "X"`,
`B` parses alone, the separator and the no-ownership proviso hold — yet in
the concatenation `A ++ "\n" ++ S ++ "\n" ++ B` the trailing newline of
`A` plus the joining newline produce an extra blank line, which is folded
into `A`'s open field; `primary_secondary_location`'s
`slice(secondaryLocationHeader + 1, contactIndex)` window (with
`contactIndex = -1`) then stretches over one more line, and the first
record comes out with `loc = "X\nY"` instead. -/
theorem c8_counterexample :
    parseString dictLoc "Primary Location\nSecondary Location\nX\nY\n" =
      .ok [[("contacts", CVal.flat (FVal.contacts [])),
            ("loc", CVal.flat (FVal.str "X"))]]
    ∧ parseString dictLoc "Primary Location\nSecondary Location\nZ" =
      .ok [[("contacts", CVal.flat (FVal.contacts [])),
            ("loc", CVal.flat (FVal.str ""))]]
    ∧ execRx (recordSeparator dictLoc) "____" = true
    ∧ noOwners dictLoc = true
    ∧ parseString dictLoc ("Primary Location\nSecondary Location\nX\nY\n" ++ "\n"
        ++ "____" ++ "\n" ++ "Primary Location\nSecondary Location\nZ") =
      .ok [[("contacts", CVal.flat (FVal.contacts [])),
            ("loc", CVal.flat (FVal.str "X\nY"))],
           [("contacts", CVal.flat (FVal.contacts [])),
            ("loc", CVal.flat (FVal.str ""))]]
    ∧ ¬(parseString dictLoc ("Primary Location\nSecondary Location\nX\nY\n" ++ "\n"
        ++ "____" ++ "\n" ++ "Primary Location\nSecondary Location\nZ") =
      .ok ([[("contacts", CVal.flat (FVal.contacts [])),
             ("loc", CVal.flat (FVal.str "X"))]]
        ++ [[("contacts", CVal.flat (FVal.contacts [])),
              ("loc", CVal.flat (FVal.str ""))]])) := by
  decide

/-- C8 amended: parsing `A ++ "\n" ++ S ++ "\n" ++ B` yields the
concatenation of the two parses, provided `A` stands on its own lines —
non-empty and not ending in a line terminator, so the join inserts no extra
blank line (the counterexample above shows a trailing newline breaks the
claim) — `S` is a single terminator-free separator line, and no
cross-record ownership links `B`'s records into `A`'s
(`noCrossOwnership`: running `B`'s lines on top of `A`'s records only
prepends them; this permits dictionaries with `belongs_to` whenever `B`'s
owned records resolve within `B` or drop, and holds for every dictionary
with no ownership rule at all, by `noOwners_noCross`). -/
theorem c8_theorem (d : Dict) (A B S : String) (ra rb : List CRec)
    (hcross : noCrossOwnership d ra (readLines B))
    (hA : parseString d A = .ok ra)
    (hB : parseString d B = .ok rb)
    (hsep : execRx (recordSeparator d) S = true)
    (hS : S.data.all (fun c => !(c == '\n' || c == '\r')) = true)
    (hA1 : (rlSplitLines A).getLast? ≠ some "")
    (hA2 : A.data.getLast? ≠ some '\r') :
    parseString d (A ++ "\n" ++ S ++ "\n" ++ B) = .ok (ra ++ rb) := by
  rw [parseString] at hA hB
  rw [parseString, readLines_concat A S B hA1 hA2 hS]
  rw [parseLines] at hA
  rcases hra : runLines d emptyScan (readLines A) with e | sta
  · rw [hra] at hA
    exact absurd hA (by simp [bind, Except.bind])
  · rw [hra] at hA
    have hA3 : finishEOF d sta = .ok ra := hA
    rw [parseLines]
    have h1 : runLines d emptyScan (readLines A ++ S :: readLines B)
        = (runLines d emptyScan (readLines A)).bind
            (fun st => runLines d st (S :: readLines B)) := by
      rw [runLines, List.foldlM_append]
      rfl
    rw [h1, hra]
    show (runLines d sta (S :: readLines B)).bind (fun st => finishEOF d st)
        = Except.ok (ra ++ rb)
    have h3 : runLines d sta (S :: readLines B)
        = (stepLine d sta S).bind (fun st2 => runLines d st2 (readLines B)) := by
      rw [runLines, List.foldlM_cons]
      rfl
    rw [h3, stepLine_sep d sta S hsep, hA3]
    show (runLines d ⟨ra, ⟨[], none⟩⟩ (readLines B)).bind (fun st => finishEOF d st)
        = Except.ok (ra ++ rb)
    have hfinal : (runLines d ⟨ra, ⟨[], none⟩⟩ (readLines B)).bind (finishEOF d)
        = Except.ok (ra ++ rb) := by
      rw [noCrossOwnership] at hcross
      rw [hcross, hB]
      rfl
    exact hfinal

/-- C8 witness: under `dictOwn` — a dictionary that does declare a
`belongs_to` rule — the amended theorem applies both to a second `Order`
record and to a suborder whose match value resolves to no owner (so it is
dropped); neither case crosses ownership into the first input's records. -/
theorem c8_witness :
    parseString dictOwn ("Foo: 1" ++ "\n" ++ "____" ++ "\n" ++ "Foo: 2") =
      .ok ([[("foo", CVal.flat (FVal.str "1"))]] ++ [[("foo", CVal.flat (FVal.str "2"))]])
    ∧ parseString dictOwn ("Foo: 1" ++ "\n" ++ "____" ++ "\n" ++ "foo: 2\nbar: hi") =
      .ok ([[("foo", CVal.flat (FVal.str "1"))]] ++ []) :=
  ⟨c8_theorem dictOwn "Foo: 1" "Foo: 2" "____"
     [[("foo", CVal.flat (FVal.str "1"))]] [[("foo", CVal.flat (FVal.str "2"))]]
     (by rw [noCrossOwnership]; decide) (by decide) (by decide) (by decide)
     (by decide) (by decide) (by decide),
   c8_theorem dictOwn "Foo: 1" "foo: 2\nbar: hi" "____"
     [[("foo", CVal.flat (FVal.str "1"))]] []
     (by rw [noCrossOwnership]; decide) (by decide) (by decide) (by decide)
     (by decide) (by decide) (by decide)⟩
